import Mathlib

/-!
# Verification of the RoadPilot voice/telephony core

Shallow embedding, in Lean 4, of the audio codec layer, the STT pipeline text
accumulation, the telephone-call orchestrator's end-of-negotiation signal
handling, text chunking, call teardown, and the browser voice session's turn
handling, translated from:

* `src/roadpilot/backend/src/voice/stt-pipeline.ts` (STT pipeline and the
  mu-law/PCM codec + resampler of `audio-convert`),
* `src/roadpilot/backend/src/services/twilio-call-service.ts`,
* `src/roadpilot/backend/src/voice/voice-session.ts`.

Conventions of the embedding:

* Node `Buffer`s are `List ℕ` of byte values (each `< 256` where it matters;
  hypotheses state this where a claim needs it).
* JavaScript number arithmetic on audio rates and interpolation is modelled
  exactly over `ℚ` (the idealized real-number semantics of the same formulas);
  integer sample values are `ℤ`.
* `Math.floor` on non-negative values is `Nat.floor`, `Math.round` is
  `⌊· + 1/2⌋` (JS rounds halves toward `+∞`), `Math.min`/`Math.max` are
  `min`/`max`.
* Strings are modelled as `List Char` so that the regex-based marker
  stripping/parsing can be given exact, executable semantics.
-/

namespace RoadPilot

/-- JS `Math.round x = ⌊x + 0.5⌋` (halves round toward `+∞`). -/
def jsRound (q : ℚ) : ℤ := ⌊q + 1 / 2⌋

/-- Reinterpret an unsigned 16-bit value as a signed one, as
`Buffer.readInt16LE` does with the assembled byte pair. -/
def toSigned16 (u : ℕ) : ℤ := if 32768 ≤ u then (u : ℤ) - 65536 else (u : ℤ)

/-- `buf.readInt16LE(2*i)`: little-endian byte pair at byte offset `2*i`,
read as a signed 16-bit integer.  (Out-of-range bytes default to `0`; all
reads performed by the code below are proved in bounds, see the C10
theorem.) -/
def readInt16LE (buf : List ℕ) (i : ℕ) : ℤ :=
  toSigned16 (buf.getD (2 * i) 0 + 256 * buf.getD (2 * i + 1) 0)

/-- `buf.writeInt16LE(v)`: the two's-complement little-endian byte pair of a
signed 16-bit value. -/
def writeInt16LE (v : ℤ) : List ℕ :=
  let u := (v % 65536).toNat
  [u % 256, u / 256]

/-! ## Resampler (`resample` in `audio-convert`)

```js
export function resample(pcmBuf, fromRate, toRate) {
  if (fromRate === toRate) return pcmBuf;
  const numInputSamples = Math.floor(pcmBuf.length / 2);
  const ratio = fromRate / toRate;
  const numOutputSamples = Math.floor(numInputSamples / ratio);
  const output = Buffer.alloc(numOutputSamples * 2);
  for (let i = 0; i < numOutputSamples; i++) {
    const srcIdx = i * ratio;
    const srcIdxFloor = Math.floor(srcIdx);
    const frac = srcIdx - srcIdxFloor;
    const s0 = pcmBuf.readInt16LE(Math.min(srcIdxFloor, numInputSamples - 1) * 2);
    const s1 = pcmBuf.readInt16LE(Math.min(srcIdxFloor + 1, numInputSamples - 1) * 2);
    const interpolated = Math.round(s0 + frac * (s1 - s0));
    output.writeInt16LE(Math.max(-32768, Math.min(32767, interpolated)), i * 2);
  }
  return output;
}
```
The loop body is split into named pieces (`numOutputSamples`, `readIdx0`,
`readIdx1`, `outSample`) so that the bounds claims can talk about them. -/

/-- `Math.floor(pcmBuf.length / 2)`. -/
def numInputSamples (buf : List ℕ) : ℕ := buf.length / 2

/-- `ratio = fromRate / toRate`. -/
def resampleRatio (fromRate toRate : ℚ) : ℚ := fromRate / toRate

/-- `numOutputSamples = Math.floor(numInputSamples / ratio)`. -/
def numOutputSamples (buf : List ℕ) (fromRate toRate : ℚ) : ℕ :=
  ⌊(numInputSamples buf : ℚ) / resampleRatio fromRate toRate⌋₊

/-- `srcIdxFloor = Math.floor(i * ratio)`. -/
def srcIdxFloor (fromRate toRate : ℚ) (i : ℕ) : ℕ :=
  ⌊(i : ℚ) * resampleRatio fromRate toRate⌋₊

/-- Source index of the first interpolation read:
`Math.min(srcIdxFloor, numInputSamples - 1)`. -/
def readIdx0 (buf : List ℕ) (fromRate toRate : ℚ) (i : ℕ) : ℕ :=
  min (srcIdxFloor fromRate toRate i) (numInputSamples buf - 1)

/-- Source index of the second interpolation read:
`Math.min(srcIdxFloor + 1, numInputSamples - 1)`. -/
def readIdx1 (buf : List ℕ) (fromRate toRate : ℚ) (i : ℕ) : ℕ :=
  min (srcIdxFloor fromRate toRate i + 1) (numInputSamples buf - 1)

/-- The clamped interpolated sample written at output index `i`:
`Math.max(-32768, Math.min(32767, Math.round(s0 + frac * (s1 - s0))))`. -/
def outSample (buf : List ℕ) (fromRate toRate : ℚ) (i : ℕ) : ℤ :=
  let srcIdx : ℚ := (i : ℚ) * resampleRatio fromRate toRate
  let frac : ℚ := srcIdx - (srcIdxFloor fromRate toRate i : ℚ)
  let s0 : ℤ := readInt16LE buf (readIdx0 buf fromRate toRate i)
  let s1 : ℤ := readInt16LE buf (readIdx1 buf fromRate toRate i)
  max (-32768) (min 32767 (jsRound ((s0 : ℚ) + frac * ((s1 : ℚ) - (s0 : ℚ)))))

/-- `resample(pcmBuf, fromRate, toRate)`. -/
def resample (buf : List ℕ) (fromRate toRate : ℚ) : List ℕ :=
  if fromRate = toRate then buf
  else (List.range (numOutputSamples buf fromRate toRate)).flatMap
    fun i => writeInt16LE (outSample buf fromRate toRate i)

/-! ## Mu-law codec (`audio-convert`)

```js
const MULAW_DECODE_TABLE = new Int16Array(256);
for (let i = 0; i < 256; i++) {
  let mulaw = ~i & 0xff;
  const sign = mulaw & 0x80;
  const exponent = (mulaw >> 4) & 0x07;
  const mantissa = mulaw & 0x0f;
  let magnitude = ((mantissa << 1) + 33) << (exponent + 2);
  magnitude -= 0x84;
  MULAW_DECODE_TABLE[i] = sign ? -magnitude : magnitude;
}
```
Bitwise operations on byte values are expressed arithmetically:
`~i & 0xff = 255 - i`, `(x >> 4) & 0x07 = (x / 16) % 8`, `x & 0x0f = x % 16`,
and the sign test `x & 0x80` is `128 ≤ x` (all for `x < 256`). -/

/-- `MULAW_DECODE_TABLE[b]`: decode one mu-law byte to a linear 16-bit
sample. -/
def mulawDecode (b : ℕ) : ℤ :=
  let mulaw := 255 - b
  let exponent := (mulaw / 16) % 8
  let mantissa := mulaw % 16
  let magnitude : ℤ := (2 * mantissa + 33) * 2 ^ (exponent + 2) - 0x84
  if 128 ≤ mulaw then -magnitude else magnitude

def MULAW_BIAS : ℕ := 0x84

def MULAW_CLIP : ℕ := 32635

/-- `linear16ToMulawSample(sample)`: encode one linear sample (16-bit signed
domain) to a mu-law byte.

```js
const sign = (sample >> 8) & 0x80;          -- for int16 inputs: 0x80 iff sample < 0
if (sign) sample = -sample;
if (sample > MULAW_CLIP) sample = MULAW_CLIP;
sample += MULAW_BIAS;
let exponent = 7;
for (; exponent > 0; exponent--)            -- finds the highest set bit among
  if (sample & (0x4000 >> (7 - exponent))) break;   -- bits 14..8, else 0
const mantissa = (sample >> (exponent + 3)) & 0x0f;
return ~(sign | (exponent << 4) | mantissa) & 0xff;
```
The bit-search loop tests single bits `14, 13, ..., 8` of the biased value;
since `sample + BIAS ≤ 32767 < 2^15` this is equivalent to the threshold
cascade below.  `sign | (exponent << 4) | mantissa` combines disjoint bit
fields, hence equals `sign + 16 * exponent + mantissa`. -/
def mulawBiased (sample : ℤ) : ℕ :=
  min (if sample < 0 then -sample else sample).toNat MULAW_CLIP + MULAW_BIAS

/-- The exponent found by the bit-search loop (bits `14..8` of the biased
magnitude, else `0`). -/
def mulawExponent (sample : ℤ) : ℕ :=
  if 0x4000 ≤ mulawBiased sample then 7
  else if 0x2000 ≤ mulawBiased sample then 6
  else if 0x1000 ≤ mulawBiased sample then 5
  else if 0x800 ≤ mulawBiased sample then 4
  else if 0x400 ≤ mulawBiased sample then 3
  else if 0x200 ≤ mulawBiased sample then 2
  else if 0x100 ≤ mulawBiased sample then 1
  else 0

def linear16ToMulawSample (sample : ℤ) : ℕ :=
  255 - ((if sample < 0 then 0x80 else 0)
    + 16 * mulawExponent sample
    + mulawBiased sample / 2 ^ (mulawExponent sample + 3) % 16)

/-- The 16-bit samples stored in a byte buffer, in order (the
`readInt16LE(i * 2)` loop of `linear16ToMulaw`; a trailing odd byte is
ignored, as by `Math.floor(pcmBuf.length / 2)`). -/
def bytesToSamples : List ℕ → List ℤ
  | b0 :: b1 :: rest => toSigned16 (b0 + 256 * b1) :: bytesToSamples rest
  | _ => []

/-- `linear16ToMulaw(pcmBuf)`: encode a PCM16 byte buffer to mu-law bytes. -/
def linear16ToMulaw (pcmBuf : List ℕ) : List ℕ :=
  (bytesToSamples pcmBuf).map linear16ToMulawSample

/-- `mulawToLinear16(mulawBuf)`: decode mu-law bytes to a PCM16 byte buffer
(each input byte becomes one `writeInt16LE`-encoded sample). -/
def mulawToLinear16 (mulawBuf : List ℕ) : List ℕ :=
  mulawBuf.flatMap fun b => writeInt16LE (mulawDecode b)

/-! ## End-of-negotiation marker stripping
(`twilio-call-service.ts`, `stripEndSignal` / `streamAndSpeak` /
`handleBrokerSpeech` / `startMaxSilenceTimer`)

Strings are `List Char`.  `stripEndSignal` is
```js
return response.replace(/\s*<<END:[^>]+>>\s*$/, "").trim();
```
The regex is end-anchored, so a match is a suffix of the input of the form
`\s* "<<END:" [^>]+ ">>" \s*`; `replace` with a non-global regex deletes the
leftmost such match.  Because `\s*` must be followed by the literal `<`,
`[^>]+` cannot absorb a `>`, and the trailing `\s*` must reach the end of
the string, the backtracking search at a fixed start position is
deterministic, and the whole match is computed by `matchesStripTag` below
applied to each suffix, leftmost first. -/

/-- JS `\s` (the ASCII whitespace subset, which is all that occurs here). -/
def isSpaceChar (c : Char) : Bool :=
  c = ' ' || c = '\t' || c = '\n' || c = '\r' || c = '\x0b' || c = '\x0c'

/-- JS `String.prototype.trim`. -/
def jsTrim (l : List Char) : List Char :=
  ((l.dropWhile isSpaceChar).reverse.dropWhile isSpaceChar).reverse

/-- The marker prefix `<<END:` of the end-of-negotiation signal tag. -/
def endMarker : List Char := "<<END:".toList

/-- The text contains the marker syntax. -/
def containsMarker (l : List Char) : Prop := endMarker <:+: l

instance (l : List Char) : Decidable (containsMarker l) :=
  inferInstanceAs (Decidable (_ <:+: _))

/-- Whether `l` as a whole matches `\s* <<END: [^>]+ >> \s*` (i.e. the strip
regex matches the suffix `l` of the response). -/
def matchesStripTag (l : List Char) : Bool :=
  let l1 := l.dropWhile isSpaceChar
  endMarker.isPrefixOf l1 &&
    (let l2 := l1.drop 6
     let inner := l2.takeWhile (· != '>')
     let l3 := l2.dropWhile (· != '>')
     !inner.isEmpty && l3.take 2 == ['>', '>'] && (l3.drop 2).all isSpaceChar)

/-- Offset of the leftmost position of `l` whose suffix matches the strip
regex (the position at which `String.prototype.replace` deletes). -/
def stripMatchPos : List Char → Option ℕ
  | [] => if matchesStripTag [] then some 0 else none
  | c :: t =>
    if matchesStripTag (c :: t) then some 0
    else (stripMatchPos t).map (· + 1)

/-- `stripEndSignal(response)`. -/
def stripEndSignal (response : List Char) : List Char :=
  jsTrim (match stripMatchPos response with
    | some p => response.take p
    | none => response)

/-- The conversation-history entry recorded for an assistant turn:
`conversationHistory.push({ role: "assistant", content: cleanResponse })`. -/
def aiHistoryEntry (rawResponse : List Char) : List Char :=
  stripEndSignal rawResponse

/-- The transcript line recorded for an assistant turn:
`transcript.push(\x60[AI] ${cleanResponse}\x60)`. -/
def aiTranscriptEntry (rawResponse : List Char) : List Char :=
  "[AI] ".toList ++ stripEndSignal rawResponse

/-- The text handed to speech synthesis for one streamed sentence or for the
trailing buffer (`streamAndSpeak`): `stripEndSignal` of that piece. -/
def ttsSentenceText (sentence : List Char) : List Char :=
  stripEndSignal sentence

/-! ## End-of-negotiation signal parsing and the negotiation result
(`parseEndSignal`, `parseNegotiationResult` in `twilio-call-service.ts`)

`parseEndSignal` is
```js
const match = response.match(/<<END:(agreed|declined)(?::(\d+(?:\.\d+)?))?>>$/);
if (!match) return null;
const agreed = match[1] === "agreed";
const ratePerMile = match[2] ? parseFloat(match[2]) : undefined;
return { agreed, ratePerMile };
```
The regex is end-anchored and has no `\s*`, so a match is a suffix of the
response of the form `<<END:` keyword (`:`digits(`.`digits)?)? `>>` reaching
the end of the string; `match` finds the leftmost start position at which
the whole remaining string has that form.   Since `[agreed|declined]`, the
digits, `.`, `:` and `>` never contain `<`, at most one suffix can have this
form, so the leftmost search is again deterministic. -/

def isDigitChar (c : Char) : Bool := '0' ≤ c && c ≤ '9'

def digitVal (c : Char) : ℕ := c.toNat - '0'.toNat

def natOfDigits (l : List Char) : ℕ :=
  l.foldl (fun acc c => 10 * acc + digitVal c) 0

/-- `parseFloat` of a `\d+(\.\d+)?` capture, idealized over `ℚ` (the decimal
value; IEEE-754 double rounding is not modelled). -/
def decimalValue (intPart fracPart : List Char) : ℚ :=
  (natOfDigits intPart : ℚ) + (natOfDigits fracPart : ℚ) / 10 ^ fracPart.length

/-- The parsed `<<END:...>>` tag: `{ agreed, ratePerMile }`. -/
structure EndSignal where
  agreed : Bool
  ratePerMile : Option ℚ
deriving DecidableEq

/-- Matching the part of the tag after the keyword against
`(?::(\d+(?:\.\d+)?))?>>` anchored at the end of the string.  Backtracking
cannot produce any other outcome: a digit run can only end where a non-digit
stands, and dropping the optional group requires a `>` right after the
keyword. -/
def matchEndTagAfterKeyword (agreed : Bool) (t : List Char) : Option EndSignal :=
  if t = ['>', '>'] then some ⟨agreed, none⟩
  else if t.head? = some ':' then
    if t.tail.takeWhile isDigitChar = [] then none
    else if (t.tail.dropWhile isDigitChar).head? = some '.' then
      if (t.tail.dropWhile isDigitChar).tail.takeWhile isDigitChar = [] then
        none
      else if (t.tail.dropWhile isDigitChar).tail.dropWhile isDigitChar
          = ['>', '>'] then
        some ⟨agreed, some (decimalValue (t.tail.takeWhile isDigitChar)
          ((t.tail.dropWhile isDigitChar).tail.takeWhile isDigitChar))⟩
      else none
    else if t.tail.dropWhile isDigitChar = ['>', '>'] then
      some ⟨agreed, some (decimalValue (t.tail.takeWhile isDigitChar) [])⟩
    else none
  else none

/-- Whether the whole of `l` matches `<<END:(agreed|declined)(:num)?>>`
(i.e. the end-anchored regex matches the suffix `l` of the response). -/
def matchEndTagAt (l : List Char) : Option EndSignal :=
  if endMarker.isPrefixOf l then
    if "agreed".toList.isPrefixOf (l.drop 6) then
      matchEndTagAfterKeyword true ((l.drop 6).drop 6)
    else if "declined".toList.isPrefixOf (l.drop 6) then
      matchEndTagAfterKeyword false ((l.drop 6).drop 8)
    else none
  else none

/-- `parseEndSignal(response)`: the leftmost suffix matching the
end-anchored tag regex, if any. -/
def parseEndSignal : List Char → Option EndSignal
  | [] => none
  | c :: t =>
    match matchEndTagAt (c :: t) with
    | some sig => some sig
    | none => parseEndSignal t

/-- `NegotiationResult` (`twilio-call-service.ts`). -/
structure NegotiationResult where
  agreed : Bool
  negotiatedRate : Option ℤ
  negotiatedRatePerMile : Option ℚ
  transcript : List (List Char)
  callDuration : ℕ
  brokerCounterOffer : Option ℚ
  notes : List Char
deriving DecidableEq

/-- `x.toFixed(2)` for the non-negative rates occurring here (idealized
decimal rounding; IEEE-754 tie behaviour of `toFixed` is not modelled). -/
def toFixed2 (q : ℚ) : List Char :=
  let n := (jsRound (q * 100)).toNat
  (toString (n / 100)).toList ++ '.' ::
    (if n % 100 < 10 then '0' :: (toString (n % 100)).toList
     else (toString (n % 100)).toList)

/-- `${ratePerMile?.toFixed(2)}`: string interpolation of an optional
number (`undefined` prints as `undefined`). -/
def optToFixed2 : Option ℚ → List Char
  | some q => toFixed2 q
  | none => "undefined".toList

/-- The `notes` strings of the signal-present branch of
`parseNegotiationResult`. -/
def negotiationNotes (agreed : Bool) (ratePerMile : Option ℚ)
    (brokerName : List Char) : List Char :=
  if agreed then
    "Negotiation successful. ".toList ++ brokerName ++ " agreed to $".toList
      ++ optToFixed2 ratePerMile ++ "/mi. Rate confirmation pending.".toList
  else
    ("Negotiation did not reach agreement. "
      ++ "Consider adjusting rate or trying another broker.").toList

/-- `parseNegotiationResult(duration)`.  The signal-present branch uses the
stored end signal; `negotiatedRate` is `ratePerMile ? Math.round(ratePerMile
* distance) : undefined` (note the JS truthiness test, under which a zero
rate yields `undefined`).  The no-signal fallback branch returns the
best-effort "unknown outcome" result; its later asynchronous overwrite by
the transcript-analysis pass is a concurrency effect outside this
embedding. -/
def parseNegotiationResult (signal : Option EndSignal) (distance : ℚ)
    (brokerName : List Char) (transcript : List (List Char))
    (duration : ℕ) : NegotiationResult :=
  match signal with
  | some sig =>
    { agreed := sig.agreed
      negotiatedRate :=
        match sig.ratePerMile with
        | some r => if r = 0 then none else some (jsRound (r * distance))
        | none => none
      negotiatedRatePerMile := sig.ratePerMile
      transcript := transcript
      callDuration := duration
      brokerCounterOffer := none
      notes := negotiationNotes sig.agreed sig.ratePerMile brokerName }
  | none =>
    { agreed := false
      negotiatedRate := none
      negotiatedRatePerMile := none
      transcript := transcript
      callDuration := duration
      brokerCounterOffer := none
      notes := ("Call ended without clear negotiation outcome. "
        ++ "Transcript analysis pending.").toList }

/-- The `NegotiationResult` computed at call end when the final generated
response of the negotiation is `raw`: `handleBrokerSpeech` (and the
max-silence turn) store `parseEndSignal(raw)` in `negotiationEndSignal`,
and `endCall` hands it to `parseNegotiationResult`. -/
def callEndResult (raw : List Char) (distance : ℚ) (brokerName : List Char)
    (transcript : List (List Char)) (duration : ℕ) : NegotiationResult :=
  parseNegotiationResult (parseEndSignal raw) distance brokerName
    transcript duration

/-! ## STT text accumulation (`stt-pipeline.ts`, `PulseSTTPipeline`)

The `connect` message handler:
```js
const text = msg.transcript || msg.text;
if (text) {
  if (msg.is_final) {
    const finalText = text.trim();
    if (finalText) {
      this.accumulatedFinalText += (this.accumulatedFinalText ? " " : "") + finalText;
    }
  } else {
    this.lastInterimText = text.trim();
    ...                               -- interim display callback only
  }
}
```
and
```js
private getBestText(): string {
  return this.accumulatedFinalText.trim() || this.lastInterimText.trim();
}
```
`endUtterance()` returns `getBestText()` of the state after the messages of
the utterance have been processed (the end-signal send, the 100 ms grace
wait and the teardown only determine which messages arrive; they do not
change this computation). -/

/-- One parsed Pulse channel message as seen by the handler: the coalesced
`msg.transcript || msg.text` (empty = falsy/absent) and `msg.is_final`. -/
structure STTMsg where
  isFinal : Bool
  text : List Char
deriving DecidableEq

/-- One handler step on the state
`(accumulatedFinalText, lastInterimText)`. -/
def sttStep (st : List Char × List Char) (m : STTMsg) : List Char × List Char :=
  if m.text = [] then st
  else if m.isFinal then
    if jsTrim m.text = [] then st
    else (st.1 ++ (if st.1 = [] then [] else [' ']) ++ jsTrim m.text, st.2)
  else (st.1, jsTrim m.text)

/-- The accumulator state after an utterance's messages. -/
def sttFold (msgs : List STTMsg) : List Char × List Char :=
  msgs.foldl sttStep ([], [])

/-- `getBestText()`. -/
def getBestText (st : List Char × List Char) : List Char :=
  if jsTrim st.1 = [] then jsTrim st.2 else jsTrim st.1

/-- The text returned by `endUtterance()` as a function of the utterance's
channel messages. -/
def endUtteranceText (msgs : List STTMsg) : List Char :=
  getBestText (sttFold msgs)

/-- The trimmed texts of the non-empty final results, in arrival order. -/
def finalSegments (msgs : List STTMsg) : List (List Char) :=
  msgs.filterMap fun m =>
    if m.isFinal = true ∧ m.text ≠ [] ∧ jsTrim m.text ≠ []
    then some (jsTrim m.text) else none

/-- The trimmed texts of the text-carrying interim results, in arrival
order. -/
def interimTexts (msgs : List STTMsg) : List (List Char) :=
  msgs.filterMap fun m =>
    if m.isFinal = false ∧ m.text ≠ [] then some (jsTrim m.text) else none

/-- Single-space concatenation. -/
def joinSpace : List (List Char) → List Char
  | [] => []
  | [s] => s
  | s :: rest => s ++ ' ' :: joinSpace rest

/-- C7's claimed output, following the spec's words (for comparison with the
code): the non-empty final segments joined by single spaces when one
arrived, otherwise the trimmed text of the last interim result. -/
def claimedEndUtteranceText (msgs : List STTMsg) : List Char :=
  if finalSegments msgs ≠ [] then joinSpace (finalSegments msgs)
  else match (msgs.filter fun m => !m.isFinal).getLast? with
    | some m => jsTrim m.text
    | none => []

/-- A list whose optional head is not whitespace. -/
def headNotSpace (l : List Char) : Prop :=
  ∀ c, l.head? = some c → isSpaceChar c = false

/-! ## Text chunking for the TTS vendor limit
(`twilio-call-service.ts`, `chunkText`)

```js
private chunkText(text, maxLen) {
  const sentences = text.match(/[^.!?,;]+[.!?,;]+|[^.!?,;]+$/g) || [text];
  const chunks = []; let current = "";
  for (const s of sentences) {
    if ((current + s).length > maxLen) {
      if (current) chunks.push(current.trim());
      if (s.length > maxLen) {
        const words = s.split(/\s+/);
        let wordChunk = "";
        for (const w of words) {
          if ((wordChunk + " " + w).length > maxLen) {
            if (wordChunk) chunks.push(wordChunk.trim());
            wordChunk = w;
          } else {
            wordChunk += (wordChunk ? " " : "") + w;
          }
        }
        current = wordChunk;
      } else { current = s; }
    } else { current += s; }
  }
  if (current.trim()) chunks.push(current.trim());
  return chunks;
}
```
The global regex match walks the text left to right: it skips characters
that can start no match (punctuation runs before the first non-punctuation
character), then repeatedly takes a maximal non-punctuation run plus the
maximal following punctuation run (empty only at end of text).  Both the
sentence scan and `split(/\s+/)` (whitespace-run splitting, with an empty
first/last element for a leading/trailing run) are modelled as left folds
over the characters so that everything evaluates by `decide`. -/

/-- The clause-boundary characters `.!?,;`. -/
def isPunctChar (c : Char) : Bool :=
  c = '.' || c = '!' || c = '?' || c = ',' || c = ';'

/-- One step of the global-match scan.  State: emitted pieces, current
piece, and whether the scan is inside the trailing punctuation run of the
current piece. -/
def sentenceScanStep (st : List (List Char) × List Char × Bool) (c : Char) :
    List (List Char) × List Char × Bool :=
  if isPunctChar c then
    if st.2.1 = [] then st                    -- leading punctuation: no match starts here
    else (st.1, st.2.1 ++ [c], true)
  else
    if st.2.2 then (st.1 ++ [st.2.1], [c], false)
    else (st.1, st.2.1 ++ [c], false)

/-- `text.match(/[^.!?,;]+[.!?,;]+|[^.!?,;]+$/g)`, as the list of matches
(`[]` when the match is `null`). -/
def sentenceMatches (text : List Char) : List (List Char) :=
  let st := text.foldl sentenceScanStep ([], [], false)
  st.1 ++ (if st.2.1 = [] then [] else [st.2.1])

/-- `text.match(...) || [text]`. -/
def sentencesOf (text : List Char) : List (List Char) :=
  match sentenceMatches text with
  | [] => [text]
  | l => l

/-- One step of `s.split(/\s+/)`.  State: finished words, current word,
and whether the scan is inside a whitespace run. -/
def splitWsStep (st : List (List Char) × List Char × Bool) (c : Char) :
    List (List Char) × List Char × Bool :=
  if isSpaceChar c then
    if st.2.2 then st else (st.1 ++ [st.2.1], [], true)
  else (st.1, st.2.1 ++ [c], false)

/-- `s.split(/\s+/)`. -/
def splitWs (s : List Char) : List (List Char) :=
  let st := s.foldl splitWsStep ([], [], false)
  st.1 ++ [st.2.1]

/-- The inner word-packing loop body. -/
def wordStep (maxLen : ℕ) (st : List (List Char) × List Char)
    (w : List Char) : List (List Char) × List Char :=
  if maxLen < (st.2 ++ [' '] ++ w).length then
    (st.1 ++ (if st.2 = [] then [] else [jsTrim st.2]), w)
  else (st.1, st.2 ++ (if st.2 = [] then [] else [' ']) ++ w)

/-- The outer sentence-packing loop body. -/
def sentenceStep (maxLen : ℕ) (st : List (List Char) × List Char)
    (s : List Char) : List (List Char) × List Char :=
  if maxLen < (st.2 ++ s).length then
    if maxLen < s.length then
      (splitWs s).foldl (wordStep maxLen)
        (st.1 ++ (if st.2 = [] then [] else [jsTrim st.2]), [])
    else (st.1 ++ (if st.2 = [] then [] else [jsTrim st.2]), s)
  else (st.1, st.2 ++ s)

/-- `chunkText(text, maxLen)`. -/
def chunkText (text : List Char) (maxLen : ℕ) : List (List Char) :=
  let st := (sentencesOf text).foldl (sentenceStep maxLen) ([], [])
  st.1 ++ (if jsTrim st.2 = [] then [] else [jsTrim st.2])

/-! ## Call teardown (`twilio-call-service.ts`, `endCall`)

```js
private endCall(reason) {
  if (this.state === "completed" || this.state === "failed") return;
  this.endTime = Date.now();
  const duration = Math.floor((this.endTime - this.startTime) / 1000);
  if (this.silenceTimer) clearTimeout(this.silenceTimer);
  if (this.maxSilenceTimer) clearTimeout(this.maxSilenceTimer);
  this.abortCurrentSpeech();                      -- clears abortController, speaking
  if (this.sttPipeline) { this.sttPipeline.disconnect(); this.sttPipeline = null; }
  this.result = this.parseNegotiationResult(duration);
  this.setState(reason === "failed" || reason === "no-answer" || reason === "busy"
    ? "failed" : "completed");
  if (this.onCallComplete && this.result) { this.onCallComplete(this.result); }
  ...                                             -- carrier-side hangup (REST I/O)
  setTimeout(..., 300000);                        -- registry cleanup (I/O)
}
```
The carrier hangup request and the delayed `activeSessions` registry
cleanup are external I/O and are not part of the session state modelled
here.  The completion callback is modelled by an invocation counter. -/

inductive CallState
  | idle
  | ringing
  | connected
  | negotiating
  | completed
  | failed
deriving DecidableEq

/-- The fields of `TwilioCallSession` read or written by `endCall` (timers
and pipelines as liveness flags), plus the config values its result
computation reads. -/
structure CallSessionState where
  state : CallState
  startTime : ℕ
  endTime : ℕ
  silenceTimer : Bool
  maxSilenceTimer : Bool
  speaking : Bool
  abortController : Bool
  sttConnected : Bool
  transcript : List (List Char)
  negotiationEndSignal : Option EndSignal
  result : Option NegotiationResult
  distance : ℚ
  brokerName : List Char
  callbackRegistered : Bool
  callbackCount : ℕ
deriving DecidableEq

/-- `endCall(reason)` at wall-clock time `now`. -/
def endCall (s : CallSessionState) (reason : List Char) (now : ℕ) :
    CallSessionState :=
  if s.state = CallState.completed ∨ s.state = CallState.failed then s
  else
    { s with
      endTime := now
      silenceTimer := false
      maxSilenceTimer := false
      abortController := false
      speaking := false
      sttConnected := false
      result := some (parseNegotiationResult s.negotiationEndSignal
        s.distance s.brokerName s.transcript ((now - s.startTime) / 1000))
      state :=
        if reason = "failed".toList ∨ reason = "no-answer".toList ∨
            reason = "busy".toList
        then CallState.failed else CallState.completed
      callbackCount :=
        s.callbackCount + (if s.callbackRegistered then 1 else 0) }

/-! ## Browser voice session turn handling
(`voice-session.ts`, `handleUserMessage`)

```js
for await (const chunk of stream.fullStream) {
  if (localAbort.signal.aborted) break;
  if (chunk.type === "text-delta") { ... fullResponseText += textDelta;
                                     this.ttsPipeline.feedText(textDelta); }
  if (chunk.type === "tool-call") { ... }
  if (chunk.type === "tool-result") { ... }
}
if (this.ttsPipeline && !localAbort.signal.aborted) { this.ttsPipeline.finish(); }
if (fullResponseText) {
  this.conversationHistory.push({ role: "assistant", content: fullResponseText });
  this.transcript.push({ role: "assistant", text: fullResponseText, ... });
  this.callbacks.onTranscript("assistant", fullResponseText);
}
```
A second `handleUserMessage` aborts the first turn's controller.  The
aborted first turn then either (a) sees one more chunk arrive, takes the
`break`, and — because the `if (fullResponseText)` push is not guarded by
`aborted` — still appends its partial assistant text, or (b) has its stream
throw `AbortError`, which the `catch` swallows without appending.  The
parameter `abortThrows` selects between these two outcomes of the external
stream. -/

inductive StreamChunk
  | textDelta (text : List Char)
  | toolCall (name : List Char)
  | toolResult (name : List Char)
deriving DecidableEq

/-- `fullResponseText` accumulated over the processed chunks. -/
def fullTextOf (chunks : List StreamChunk) : List Char :=
  chunks.foldl
    (fun acc c => match c with
      | StreamChunk.textDelta t => acc ++ t
      | _ => acc) []

/-- Whether one turn appends an assistant transcript/history entry.
`abortAt = some k` means the turn's abort signal fired after `k` chunks
were processed; `abortThrows` tells whether the aborted stream then threw
(`catch` path, no append) or yielded a further chunk (`break` path). -/
def turnAppendsAssistant (events : List StreamChunk) (abortAt : Option ℕ)
    (abortThrows : Bool) : Bool :=
  match abortAt with
  | none => !(fullTextOf events).isEmpty
  | some k => if abortThrows then false else !(fullTextOf (events.take k)).isEmpty

/-- Number of assistant entries appended when `handleUserMessage` is issued
a second time while the first turn's stream is in flight (the first turn
aborted after `k` chunks, the second running to completion). -/
def assistantEntriesAppended (events1 events2 : List StreamChunk) (k : ℕ)
    (abortThrows : Bool) : ℕ :=
  (if turnAppendsAssistant events1 (some k) abortThrows then 1 else 0) +
  (if turnAppendsAssistant events2 none false then 1 else 0)

/-- A chunk acceptable to the amended C8 claim: within the length limit, or
a single whitespace-free over-long word. -/
def chunkOK (maxLen : ℕ) (c : List Char) : Prop :=
  c.length ≤ maxLen ∨ ∀ ch ∈ c, isSpaceChar ch = false

/-- A concrete session already in a terminal state (witness fixture). -/
def doneSession : CallSessionState where
  state := CallState.completed
  startTime := 0
  endTime := 7
  silenceTimer := false
  maxSilenceTimer := false
  speaking := false
  abortController := false
  sttConnected := false
  transcript := []
  negotiationEndSignal := none
  result := none
  distance := 500
  brokerName := []
  callbackRegistered := true
  callbackCount := 1

/-- A concrete mid-negotiation session (witness fixture). -/
def liveSession : CallSessionState where
  state := CallState.negotiating
  startTime := 0
  endTime := 0
  silenceTimer := true
  maxSilenceTimer := true
  speaking := false
  abortController := false
  sttConnected := true
  transcript := []
  negotiationEndSignal := none
  result := none
  distance := 500
  brokerName := []
  callbackRegistered := true
  callbackCount := 0

/-- Every emitted sample is written as exactly two bytes. -/
theorem writeInt16LE_length (v : ℤ) : (writeInt16LE v).length = 2 := rfl

/-- When the rates differ, the output buffer holds `numOutputSamples`
16-bit samples (two bytes each). -/
theorem resample_length_of_ne (buf : List ℕ) {fromRate toRate : ℚ}
    (h : fromRate ≠ toRate) :
    (resample buf fromRate toRate).length
      = 2 * numOutputSamples buf fromRate toRate := by
  have hmap : ∀ i : ℕ,
      (List.length ∘ fun i => writeInt16LE (outSample buf fromRate toRate i)) i
        = 2 := fun _ => rfl
  simp only [resample, h, if_false, List.length_flatMap]
  rw [List.map_congr_left fun i _ => hmap i]
  simp [List.map_const', mul_comm]

/-- C4: when the source and target rates coincide, `resample` returns its
input buffer unchanged (the `fromRate === toRate` early return). -/
theorem resample_identity (buf : List ℕ) (R : ℚ) : resample buf R R = buf := by
  simp [resample]

/-- Counterexample to C3 as stated: for the 2-sample buffer `[0,0,0,0]`
upsampled from 8000 Hz to 16000 Hz the code produces
`⌊2 / (8000/16000)⌋ = 4` samples, not `⌊2 * 8000/16000⌋ = 1` as the claimed
formula `floor(len(buf)/2 * from/to)` would require. -/
theorem resample_claimed_length_false :
    ¬ ((resample [0, 0, 0, 0] 8000 16000).length / 2
        = ⌊(numInputSamples [0, 0, 0, 0] : ℚ) * 8000 / 16000⌋₊) := by
  rw [resample_length_of_ne _ (by norm_num)]
  have h4 : numOutputSamples [0, 0, 0, 0] 8000 16000 = 4 := by
    unfold numOutputSamples resampleRatio numInputSamples
    norm_num
  rw [h4]
  unfold numInputSamples
  norm_num

/-- C3 (amended): for positive rates the output of `resample` holds exactly
`floor(inputSamples / ratio)` = `floor((len(buf)/2) * toRate / fromRate)`
samples — the `to`/`from` roles are the reverse of the claimed
`floor(len(buf)/2 * from/to)`. -/
theorem resample_sample_count (buf : List ℕ) (fromRate toRate : ℚ)
    (hf : 0 < fromRate) (_ht : 0 < toRate) :
    (resample buf fromRate toRate).length / 2
      = ⌊(numInputSamples buf : ℚ) * toRate / fromRate⌋₊ := by
  by_cases h : fromRate = toRate
  · subst h
    rw [mul_div_assoc, div_self (ne_of_gt hf), mul_one, Nat.floor_natCast]
    simp [resample, numInputSamples]
  · rw [resample_length_of_ne buf h, Nat.mul_div_cancel_left _ (by norm_num)]
    unfold numOutputSamples resampleRatio
    rw [div_div_eq_mul_div]

/-- Witness for the amended C3 theorem at a concrete input. -/
theorem resample_sample_count_witness :
    (0 : ℚ) < 8000 ∧ (0 : ℚ) < 16000 ∧
    (resample [0, 0, 0, 0] 8000 16000).length / 2
      = ⌊(numInputSamples [0, 0, 0, 0] : ℚ) * 16000 / 8000⌋₊ :=
  ⟨by norm_num, by norm_num,
    resample_sample_count [0, 0, 0, 0] 8000 16000 (by norm_num) (by norm_num)⟩

/-- C10: for positive rates, every source index the resampler reads is
clamped inside the input buffer's sample range, and every interpolated
output sample is clamped into `[-32768, 32767]` before being written. -/
theorem resample_reads_in_bounds_and_clamped (buf : List ℕ)
    (fromRate toRate : ℚ) (_hf : 0 < fromRate) (_ht : 0 < toRate) :
    ∀ i < numOutputSamples buf fromRate toRate,
      (readIdx0 buf fromRate toRate i < numInputSamples buf ∧
        readIdx1 buf fromRate toRate i < numInputSamples buf) ∧
      (-32768 ≤ outSample buf fromRate toRate i ∧
        outSample buf fromRate toRate i ≤ 32767) := by
  intro i hi
  have hn : 0 < numInputSamples buf := by
    rcases Nat.eq_zero_or_pos (numInputSamples buf) with h0 | h
    · exfalso
      have hz : numOutputSamples buf fromRate toRate = 0 := by
        unfold numOutputSamples
        rw [h0]
        simp
      omega
    · exact h
  refine ⟨⟨?_, ?_⟩, ?_, ?_⟩
  · exact lt_of_le_of_lt (min_le_right _ _) (Nat.sub_lt hn one_pos)
  · exact lt_of_le_of_lt (min_le_right _ _) (Nat.sub_lt hn one_pos)
  · simp only [outSample]
    exact le_max_left _ _
  · simp only [outSample]
    exact max_le (by norm_num) (min_le_left _ _)

/-- Witness for the C10 theorem at a concrete input. -/
theorem resample_reads_in_bounds_and_clamped_witness :
    (0 : ℚ) < 24000 ∧ (0 : ℚ) < 8000 ∧
    (∀ i < numOutputSamples [10, 0, 20, 0, 30, 0] 24000 8000,
      (readIdx0 [10, 0, 20, 0, 30, 0] 24000 8000 i
          < numInputSamples [10, 0, 20, 0, 30, 0] ∧
        readIdx1 [10, 0, 20, 0, 30, 0] 24000 8000 i
          < numInputSamples [10, 0, 20, 0, 30, 0]) ∧
      (-32768 ≤ outSample [10, 0, 20, 0, 30, 0] 24000 8000 i ∧
        outSample [10, 0, 20, 0, 30, 0] 24000 8000 i ≤ 32767)) :=
  ⟨by norm_num, by norm_num,
    resample_reads_in_bounds_and_clamped [10, 0, 20, 0, 30, 0] 24000 8000
      (by norm_num) (by norm_num)⟩

/-- Encoded mu-law bytes are bytes. -/
theorem linear16ToMulawSample_lt_256 (s : ℤ) : linear16ToMulawSample s < 256 :=
  Nat.lt_of_le_of_lt (Nat.sub_le 255 _) (by norm_num)

set_option maxRecDepth 4096 in
/-- Decoded samples fit the signed 16-bit range. -/
theorem mulawDecode_range : ∀ b < 256, -32768 ≤ mulawDecode b ∧ mulawDecode b ≤ 32767 := by
  decide

set_option maxRecDepth 4096 in
/-- Encode is a left inverse of decode on every mu-law byte except `0x7F`
(the "negative zero" code, which decodes to `0` and re-encodes to `0xFF`). -/
theorem mulaw_byte_roundtrip : ∀ b < 256, b ≠ 127 → linear16ToMulawSample (mulawDecode b) = b := by
  decide

/-- `writeInt16LE` followed by a 16-bit read restores the sample, for
in-range samples. -/
theorem bytesToSamples_writeInt16LE (v : ℤ) (rest : List ℕ)
    (h1 : -32768 ≤ v) (h2 : v ≤ 32767) :
    bytesToSamples (writeInt16LE v ++ rest) = v :: bytesToSamples rest := by
  show toSigned16 _ :: bytesToSamples rest = v :: bytesToSamples rest
  congr 1
  unfold toSigned16
  split <;> omega

/-- Samples assembled from genuine byte values lie in the signed 16-bit
range. -/
theorem bytesToSamples_range : ∀ buf : List ℕ, (∀ b ∈ buf, b < 256) →
    ∀ s ∈ bytesToSamples buf, -32768 ≤ s ∧ s ≤ 32767
  | [], _, s, hs => by simp [bytesToSamples] at hs
  | [_], _, s, hs => by simp [bytesToSamples] at hs
  | b0 :: b1 :: rest, hb, s, hs => by
    rw [bytesToSamples] at hs
    rcases List.mem_cons.mp hs with h | h
    · subst h
      have h0 : b0 < 256 := hb b0 (by simp)
      have h1 : b1 < 256 := hb b1 (by simp)
      unfold toSigned16
      split <;> omega
    · exact bytesToSamples_range rest (fun b hb' => hb b (by simp [hb'])) s h

/-- The encoder emits the "negative zero" byte `0x7F` exactly for the
samples `-3`, `-2`, `-1`. -/
theorem linear16ToMulawSample_eq_127_iff (s : ℤ)
    (h1 : -32768 ≤ s) (h2 : s ≤ 32767) :
    linear16ToMulawSample s = 127 ↔ (-3 ≤ s ∧ s ≤ -1) := by
  have hexp_le : mulawExponent s ≤ 7 := by
    unfold mulawExponent
    split_ifs <;> omega
  have hmant_le : mulawBiased s / 2 ^ (mulawExponent s + 3) % 16 ≤ 15 :=
    Nat.le_of_lt_succ (Nat.mod_lt _ (by norm_num))
  have hbias_ge : 132 ≤ mulawBiased s := by
    unfold mulawBiased MULAW_BIAS
    omega
  constructor
  · intro h
    unfold linear16ToMulawSample at h
    by_cases hneg : s < 0
    · rw [if_pos hneg] at h
      have he0 : mulawExponent s = 0 := by omega
      have hm0 : mulawBiased s / 2 ^ (mulawExponent s + 3) % 16 = 0 := by omega
      rw [he0] at hm0
      have hblt : mulawBiased s < 256 := by
        by_contra hb
        unfold mulawExponent at he0
        split_ifs at he0
        omega
      unfold mulawBiased MULAW_BIAS MULAW_CLIP at hblt hm0
      rw [if_pos hneg] at hblt hm0
      norm_num at hm0
      omega
    · rw [if_neg hneg] at h
      omega
  · rintro ⟨ha, hb⟩
    have hneg : s < 0 := by omega
    have hbias : mulawBiased s = (-s).toNat + 132 := by
      unfold mulawBiased MULAW_CLIP MULAW_BIAS
      rw [if_pos hneg]
      omega
    have hblt : mulawBiased s < 256 := by omega
    have he0 : mulawExponent s = 0 := by
      unfold mulawExponent
      split_ifs <;> omega
    unfold linear16ToMulawSample
    rw [if_pos hneg, he0]
    norm_num
    omega

/-- For valid samples outside `[-3, -1]` the encoder never emits `0x7F`. -/
theorem linear16ToMulawSample_ne_127 (s : ℤ) (h1 : -32768 ≤ s)
    (h2 : s ≤ 32767) (hs : s < -3 ∨ -1 < s) :
    linear16ToMulawSample s ≠ 127 := by
  rw [ne_eq, linear16ToMulawSample_eq_127_iff s h1 h2]
  omega

/-- Reading back the samples of a decoded mu-law buffer recovers the decode
table values, one per input byte. -/
theorem bytesToSamples_mulawToLinear16 (bs : List ℕ)
    (hb : ∀ b ∈ bs, b < 256) :
    bytesToSamples (mulawToLinear16 bs) = bs.map mulawDecode := by
  induction bs with
  | nil => rfl
  | cons b rest ih =>
    have hr := mulawDecode_range b (hb b (by simp))
    simp only [mulawToLinear16, List.flatMap_cons, List.map_cons]
    rw [bytesToSamples_writeInt16LE _ _ hr.1 hr.2]
    exact congrArg _ (ih fun x hx => hb x (by simp [hx]))

/-- Counterexample to C5 as stated: the one-sample buffer holding `-1`
(bytes `[0xFF, 0xFF]`) encodes to `0x7F`, which decodes to `0` and
re-encodes to `0xFF ≠ 0x7F`. -/
theorem mulaw_idempotence_false :
    linear16ToMulaw (mulawToLinear16 (linear16ToMulaw [255, 255]))
      ≠ linear16ToMulaw [255, 255] := by
  decide

/-- C5 (amended): mu-law encode is idempotent after the first quantization
pass for every valid PCM16 buffer none of whose samples lies in `[-3, -1]`;
those three samples encode to the negative-zero code `0x7F`, which decodes
to `0` and re-encodes to `0xFF`. -/
theorem mulaw_encode_idempotent (x : List ℕ) (hb : ∀ b ∈ x, b < 256)
    (hs : ∀ s ∈ bytesToSamples x, s < -3 ∨ -1 < s) :
    linear16ToMulaw (mulawToLinear16 (linear16ToMulaw x))
      = linear16ToMulaw x := by
  have hrange := bytesToSamples_range x hb
  show (bytesToSamples (mulawToLinear16
      ((bytesToSamples x).map linear16ToMulawSample))).map linear16ToMulawSample
    = (bytesToSamples x).map linear16ToMulawSample
  rw [bytesToSamples_mulawToLinear16 _ (by
    intro b hb'
    rcases List.mem_map.mp hb' with ⟨s, _, rfl⟩
    exact linear16ToMulawSample_lt_256 s)]
  rw [List.map_map, List.map_map]
  apply List.map_congr_left
  intro s hsx
  have h := hrange s hsx
  have hne := linear16ToMulawSample_ne_127 s h.1 h.2 (hs s hsx)
  simpa [Function.comp] using
    mulaw_byte_roundtrip _ (linear16ToMulawSample_lt_256 s) hne

/-- `jsTrim` yields a contiguous piece of its input. -/
theorem jsTrim_infixOf (l : List Char) : jsTrim l <:+: l := by
  unfold jsTrim
  have h1 : l.dropWhile isSpaceChar <:+ l := List.dropWhile_suffix _
  have h2 : ((l.dropWhile isSpaceChar).reverse.dropWhile isSpaceChar).reverse
      <+: l.dropWhile isSpaceChar := by
    rw [← List.reverse_suffix]
    simpa using List.dropWhile_suffix (l := (l.dropWhile isSpaceChar).reverse)
      (p := isSpaceChar)
  exact h2.isInfix.trans h1.isInfix

/-- A contiguous piece of marker-free text is marker-free. -/
theorem containsMarker_mono {x l : List Char} (hx : x <:+: l)
    (h : ¬ containsMarker l) : ¬ containsMarker x :=
  fun hc => h (hc.trans hx)

/-- An occurrence of the marker inside `pre ++ s` lies inside `s` whenever
no character of `pre` is `<` (the marker's first character). -/
theorem containsMarker_append_right : ∀ pre s : List Char,
    (∀ c ∈ pre, c ≠ '<') → containsMarker (pre ++ s) → containsMarker s := by
  intro pre
  induction pre with
  | nil =>
    intro s _ h
    simpa using h
  | cons c pre' ih =>
    intro s hpre h
    rcases h with ⟨u, v, huv⟩
    cases u with
    | nil =>
      exfalso
      apply hpre c (List.mem_cons_self c pre')
      have hh : endMarker ++ v = c :: (pre' ++ s) := by simpa using huv
      rw [show endMarker = '<' :: "<END:".toList from rfl] at hh
      exact (List.cons.injEq _ _ _ _ ▸ hh).1.symm
    | cons d u' =>
      apply ih s (fun x hx => hpre x (List.mem_cons_of_mem _ hx))
      have hh : u' ++ endMarker ++ v = pre' ++ s := by
        have h2 : d :: (u' ++ endMarker ++ v) = c :: (pre' ++ s) := by
          simpa using huv
        exact (List.cons.injEq _ _ _ _ ▸ h2).2
      exact ⟨u', v, hh⟩

/-- If some suffix of `body ++ tag` starting inside `body` (or at the
boundary) matches the strip regex, `stripMatchPos` finds a match no later
than the boundary. -/
theorem stripMatchPos_le_of_tag : ∀ (body tag : List Char),
    matchesStripTag tag = true →
    ∃ p ≤ body.length, stripMatchPos (body ++ tag) = some p := by
  intro body
  induction body with
  | nil =>
    intro tag htag
    refine ⟨0, Nat.le_refl 0, ?_⟩
    cases tag with
    | nil => simp [stripMatchPos, htag]
    | cons c t => simp [stripMatchPos, htag]
  | cons c body' ih =>
    intro tag htag
    by_cases hm : matchesStripTag (c :: (body' ++ tag)) = true
    · exact ⟨0, Nat.zero_le _, by simp [stripMatchPos, hm]⟩
    · obtain ⟨p, hp, hpos⟩ := ih tag htag
      refine ⟨p + 1, by simpa using Nat.succ_le_succ hp, ?_⟩
      simp [stripMatchPos, hm, hpos]

/-- The stripped text is always a contiguous piece of the prefix of the
response that precedes the deleted match (or of the whole response if
nothing matched). -/
theorem stripEndSignal_infix_take (response : List Char) :
    ∃ p, stripEndSignal response = jsTrim (response.take p) := by
  unfold stripEndSignal
  cases h : stripMatchPos response with
  | none => exact ⟨response.length, by simp⟩
  | some p => exact ⟨p, rfl⟩

/-- Counterexample to C1 as stated: a marker placed mid-response (not as a
trailing tag) survives `stripEndSignal`, so the transcript entry, the
conversation-history entry and the TTS text all still contain the marker
syntax. -/
theorem endSignal_stripping_false :
    containsMarker (aiTranscriptEntry "ok <<END:declined>> bye".toList) ∧
    containsMarker (aiHistoryEntry "ok <<END:declined>> bye".toList) ∧
    containsMarker (ttsSentenceText "ok <<END:declined>> bye".toList) :=
  ⟨by decide, by decide, by decide⟩

/-- C1 (amended): whenever a raw model text contains the marker syntax only
as a trailing signal tag (as the system prompt instructs) — or not at all —
the stripped text recorded in the conversation history, the transcript line,
and the text handed to speech synthesis are all free of the marker
syntax. -/
theorem endSignal_stripping (raw : List Char)
    (h : (∃ body tag, raw = body ++ tag ∧ ¬ containsMarker body ∧
            matchesStripTag tag = true) ∨ ¬ containsMarker raw) :
    ¬ containsMarker (aiHistoryEntry raw) ∧
    ¬ containsMarker (aiTranscriptEntry raw) ∧
    ¬ containsMarker (ttsSentenceText raw) := by
  have hfree : ¬ containsMarker (stripEndSignal raw) := by
    rcases h with ⟨body, tag, rfl, hbody, htag⟩ | hraw
    · obtain ⟨p, hp, hpos⟩ := stripMatchPos_le_of_tag body tag htag
      have htake : (body ++ tag).take p = body.take p :=
        List.take_append_of_le_length hp
      unfold stripEndSignal
      rw [hpos]
      show ¬ containsMarker (jsTrim ((body ++ tag).take p))
      rw [htake]
      exact containsMarker_mono
        ((jsTrim_infixOf _).trans (List.take_prefix _ _).isInfix) hbody
    · obtain ⟨p, hp⟩ := stripEndSignal_infix_take raw
      rw [hp]
      exact containsMarker_mono
        ((jsTrim_infixOf _).trans (List.take_prefix _ _).isInfix) hraw
  refine ⟨hfree, ?_, hfree⟩
  unfold aiTranscriptEntry
  intro hc
  exact hfree (containsMarker_append_right "[AI] ".toList _ (by decide) hc)

/-- Witness for the amended C1 theorem at a concrete input. -/
theorem endSignal_stripping_witness :
    ((∃ body tag, "Sounds good. <<END:agreed:3.75>>".toList = body ++ tag ∧
        ¬ containsMarker body ∧ matchesStripTag tag = true) ∨
      ¬ containsMarker "Sounds good. <<END:agreed:3.75>>".toList) ∧
    (¬ containsMarker (aiHistoryEntry "Sounds good. <<END:agreed:3.75>>".toList) ∧
     ¬ containsMarker (aiTranscriptEntry "Sounds good. <<END:agreed:3.75>>".toList) ∧
     ¬ containsMarker (ttsSentenceText "Sounds good. <<END:agreed:3.75>>".toList)) :=
  ⟨Or.inl ⟨"Sounds good.".toList, " <<END:agreed:3.75>>".toList,
      by decide, by decide, by decide⟩,
    endSignal_stripping _ (Or.inl ⟨"Sounds good.".toList,
      " <<END:agreed:3.75>>".toList, by decide, by decide, by decide⟩)⟩

/-- A successful keyword-tail match contains no `<`. -/
theorem matchEndTagAfterKeyword_no_lt (a : Bool) (sig : EndSignal)
    (t : List Char) (h : matchEndTagAfterKeyword a t = some sig) :
    '<' ∉ t := by
  unfold matchEndTagAfterKeyword at h
  split_ifs at h with h1 h2 h3 h4 h5 h6 h7
  all_goals simp only [Option.some.injEq, reduceCtorEq] at h
  · subst h1
    decide
  · -- fractional-rate branch
    cases t with
    | nil => simp at h2
    | cons c t1 =>
      simp only [List.head?_cons, Option.some.injEq] at h2
      subst h2
      simp only [List.tail_cons] at h4 h6
      intro hmem
      rcases List.mem_cons.mp hmem with hc | hc
      · exact absurd hc (by decide)
      rw [← List.takeWhile_append_dropWhile (p := isDigitChar) (l := t1)] at hc
      rcases List.mem_append.mp hc with hc | hc
      · exact absurd (List.mem_takeWhile_imp hc) (by decide)
      rcases hd : List.dropWhile isDigitChar t1 with _ | ⟨d, t3⟩
      · rw [hd] at hc
        simp at hc
      rw [hd] at hc h4 h6
      simp only [List.head?_cons, Option.some.injEq] at h4
      subst h4
      rcases List.mem_cons.mp hc with hc | hc
      · exact absurd hc (by decide)
      simp only [List.tail_cons] at h6
      rw [← List.takeWhile_append_dropWhile (p := isDigitChar) (l := t3)] at hc
      rcases List.mem_append.mp hc with hc | hc
      · exact absurd (List.mem_takeWhile_imp hc) (by decide)
      rw [h6] at hc
      exact absurd hc (by decide)
  · -- integral-rate branch
    cases t with
    | nil => simp at h2
    | cons c t1 =>
      simp only [List.head?_cons, Option.some.injEq] at h2
      subst h2
      simp only [List.tail_cons] at h7
      intro hmem
      rcases List.mem_cons.mp hmem with hc | hc
      · exact absurd hc (by decide)
      rw [← List.takeWhile_append_dropWhile (p := isDigitChar) (l := t1)] at hc
      rcases List.mem_append.mp hc with hc | hc
      · exact absurd (List.mem_takeWhile_imp hc) (by decide)
      rw [h7] at hc
      exact absurd hc (by decide)

/-- A successfully matching tag starts with `<<` and contains no further
`<`. -/
theorem matchEndTagAt_shape (l : List Char) (sig : EndSignal)
    (h : matchEndTagAt l = some sig) :
    ∃ rest, l = '<' :: '<' :: rest ∧ '<' ∉ rest := by
  unfold matchEndTagAt at h
  split_ifs at h with h1 h2 h3
  · obtain ⟨t, ht⟩ := List.isPrefixOf_iff_prefix.mp h1
    subst ht
    have hd : (endMarker ++ t).drop 6 = t := rfl
    rw [hd] at h2 h
    obtain ⟨t2, ht2⟩ := List.isPrefixOf_iff_prefix.mp h2
    subst ht2
    have hd2 : ("agreed".toList ++ t2).drop 6 = t2 := rfl
    rw [hd2] at h
    have hno := matchEndTagAfterKeyword_no_lt _ _ _ h
    refine ⟨"END:".toList ++ ("agreed".toList ++ t2), rfl, ?_⟩
    intro hmem
    rcases List.mem_append.mp hmem with hc | hc
    · exact absurd hc (by decide)
    rcases List.mem_append.mp hc with hc | hc
    · exact absurd hc (by decide)
    exact hno hc
  · obtain ⟨t, ht⟩ := List.isPrefixOf_iff_prefix.mp h1
    subst ht
    have hd : (endMarker ++ t).drop 6 = t := rfl
    rw [hd] at h3 h
    obtain ⟨t2, ht2⟩ := List.isPrefixOf_iff_prefix.mp h3
    subst ht2
    have hd2 : ("declined".toList ++ t2).drop 8 = t2 := rfl
    rw [hd2] at h
    have hno := matchEndTagAfterKeyword_no_lt _ _ _ h
    refine ⟨"END:".toList ++ ("declined".toList ++ t2), rfl, ?_⟩
    intro hmem
    rcases List.mem_append.mp hmem with hc | hc
    · exact absurd hc (by decide)
    rcases List.mem_append.mp hc with hc | hc
    · exact absurd hc (by decide)
    exact hno hc

/-- At most one suffix of a string can match the whole tag pattern: a match
starting strictly earlier than a matching suffix is impossible. -/
theorem matchEndTagAt_append_ne (x tag : List Char) (sig sig' : EndSignal)
    (hx : x ≠ []) (htag : matchEndTagAt tag = some sig)
    (h : matchEndTagAt (x ++ tag) = some sig') : False := by
  obtain ⟨rest, heq, hrest⟩ := matchEndTagAt_shape _ _ h
  obtain ⟨rest2, heq2, _⟩ := matchEndTagAt_shape _ _ htag
  cases x with
  | nil => exact hx rfl
  | cons a x1 =>
    cases x1 with
    | nil =>
      rw [heq2] at heq
      have h3 : a :: '<' :: '<' :: rest2 = '<' :: '<' :: rest := heq
      injection h3 with _ h4
      injection h4 with _ h5
      exact hrest (h5 ▸ List.mem_cons_self _ _)
    | cons b x2 =>
      have h3 : a :: b :: (x2 ++ tag) = '<' :: '<' :: rest := heq
      injection h3 with _ h4
      injection h4 with _ h5
      apply hrest
      rw [← h5]
      exact List.mem_append_right _ (heq2 ▸ List.mem_cons_self _ _)

/-- `parseEndSignal` finds the (unique) matching tag suffix. -/
theorem parseEndSignal_append (body tag : List Char) (sig : EndSignal)
    (htag : matchEndTagAt tag = some sig) :
    parseEndSignal (body ++ tag) = some sig := by
  induction body with
  | nil =>
    obtain ⟨rest, heq, -⟩ := matchEndTagAt_shape _ _ htag
    rw [List.nil_append, heq]
    rw [heq] at htag
    simp [parseEndSignal, htag]
  | cons c body' ih =>
    have hnone : matchEndTagAt (c :: (body' ++ tag)) = none := by
      rcases hcase : matchEndTagAt (c :: (body' ++ tag)) with _ | s
      · rfl
      · exact absurd
          (matchEndTagAt_append_ne (c :: body') tag sig s (by simp) htag hcase)
          not_false
    show parseEndSignal (c :: (body' ++ tag)) = some sig
    rw [parseEndSignal, hnone]
    exact ih

/-- The full tag matcher on `<<END:agreed:` + tail reduces to the
keyword-tail matcher. -/
theorem matchEndTagAt_agreed_aux (Y : List Char) :
    matchEndTagAt (endMarker ++ ("agreed".toList ++ (':' :: Y)))
      = matchEndTagAfterKeyword true (':' :: Y) := by
  unfold matchEndTagAt
  rw [if_pos (List.isPrefixOf_iff_prefix.mpr (List.prefix_append _ _))]
  have hd : (endMarker ++ ("agreed".toList ++ (':' :: Y))).drop 6
      = "agreed".toList ++ (':' :: Y) := rfl
  rw [hd, if_pos (List.isPrefixOf_iff_prefix.mpr (List.prefix_append _ _))]
  rfl

/-- The keyword-tail matcher on a well-formed integral rate. -/
theorem matchEndTagAfterKeyword_agreed_int (intPart : List Char)
    (hint : ∀ c ∈ intPart, isDigitChar c = true) (hne : intPart ≠ []) :
    matchEndTagAfterKeyword true (':' :: (intPart ++ ">>".toList))
      = some ⟨true, some (decimalValue intPart [])⟩ := by
  unfold matchEndTagAfterKeyword
  rw [if_neg (by
    intro hcontra
    injection hcontra with hc _
    exact absurd hc (by decide))]
  rw [if_pos (show (':' :: (intPart ++ ">>".toList)).head? = some ':'
    from rfl)]
  simp only [List.tail_cons]
  rw [List.takeWhile_append_of_pos hint, List.dropWhile_append_of_pos hint]
  rw [show (">>".toList).takeWhile isDigitChar = [] from rfl,
    show (">>".toList).dropWhile isDigitChar = ">>".toList from rfl,
    List.append_nil]
  rw [if_neg hne,
    if_neg (show ¬((">>".toList).head? = some '.') from by decide),
    if_pos (show ">>".toList = ['>', '>'] from rfl)]

/-- The keyword-tail matcher on a well-formed fractional rate. -/
theorem matchEndTagAfterKeyword_agreed_frac (intPart fracPart : List Char)
    (hint : ∀ c ∈ intPart, isDigitChar c = true) (hne : intPart ≠ [])
    (hfrac : ∀ c ∈ fracPart, isDigitChar c = true) (hfp : fracPart ≠ []) :
    matchEndTagAfterKeyword true
        (':' :: (intPart ++ ('.' :: (fracPart ++ ">>".toList))))
      = some ⟨true, some (decimalValue intPart fracPart)⟩ := by
  unfold matchEndTagAfterKeyword
  rw [if_neg (by
    intro hcontra
    injection hcontra with hc _
    exact absurd hc (by decide))]
  rw [if_pos (show (':' :: (intPart ++ ('.' ::
    (fracPart ++ ">>".toList)))).head? = some ':' from rfl)]
  simp only [List.tail_cons]
  rw [List.takeWhile_append_of_pos hint, List.dropWhile_append_of_pos hint]
  rw [show ('.' :: (fracPart ++ ">>".toList)).takeWhile isDigitChar = []
      from rfl,
    show ('.' :: (fracPart ++ ">>".toList)).dropWhile isDigitChar
      = '.' :: (fracPart ++ ">>".toList) from rfl,
    List.append_nil]
  rw [if_neg hne,
    if_pos (show ('.' :: (fracPart ++ ">>".toList)).head? = some '.'
      from rfl)]
  simp only [List.tail_cons]
  rw [List.takeWhile_append_of_pos hfrac, List.dropWhile_append_of_pos hfrac]
  rw [show (">>".toList).takeWhile isDigitChar = [] from rfl,
    show (">>".toList).dropWhile isDigitChar = ">>".toList from rfl,
    List.append_nil]
  rw [if_neg hfp, if_pos (show ">>".toList = ['>', '>'] from rfl)]

/-- Evaluating the tag matcher on a well-formed `agreed` tag with symbolic
digit strings. -/
theorem matchEndTagAt_agreed (intPart fracPart : List Char)
    (hint : ∀ c ∈ intPart, isDigitChar c = true) (hne : intPart ≠ [])
    (hfrac : ∀ c ∈ fracPart, isDigitChar c = true) :
    matchEndTagAt ("<<END:agreed:".toList ++ intPart
        ++ ((if fracPart = [] then [] else '.' :: fracPart) ++ ">>".toList))
      = some ⟨true, some (decimalValue intPart fracPart)⟩ := by
  rw [List.append_assoc]
  by_cases hfp : fracPart = []
  · subst hfp
    show matchEndTagAt (endMarker ++ ("agreed".toList
      ++ (':' :: (intPart ++ ">>".toList)))) = _
    rw [matchEndTagAt_agreed_aux]
    exact matchEndTagAfterKeyword_agreed_int intPart hint hne
  · rw [if_neg hfp]
    show matchEndTagAt (endMarker ++ ("agreed".toList
      ++ (':' :: (intPart ++ ('.' :: (fracPart ++ ">>".toList)))))) = _
    rw [matchEndTagAt_agreed_aux]
    exact matchEndTagAfterKeyword_agreed_frac intPart fracPart hint hne
      hfrac hfp

/-- Counterexample to C2 as stated: a zero rate (`<<END:agreed:0>>`) is
falsy in JS, so `negotiatedRate` is left `undefined` instead of
`Math.round(0 * distance) = 0`. -/
theorem negotiationResult_zero_rate_false :
    ¬ ((callEndResult ("Okay. ".toList ++ "<<END:agreed:0>>".toList)
          500 [] [] 30).negotiatedRate
        = some (jsRound ((0 : ℚ) * 500))) := by
  have h0 : matchEndTagAt "<<END:agreed:0>>".toList
      = some ⟨true, some (decimalValue ['0'] [])⟩ := rfl
  have hp := parseEndSignal_append "Okay. ".toList _ _ h0
  have hz : decimalValue ['0'] [] = 0 := by
    unfold decimalValue
    rw [show natOfDigits ['0'] = 0 from rfl, show natOfDigits [] = 0 from rfl]
    norm_num
  unfold callEndResult parseNegotiationResult
  rw [hp]
  simp [hz]

/-- C2 (amended): if the final generated response of a negotiating call ends
with `<<END:agreed:R>>` for a decimal rate `R` with nonzero value, the
`NegotiationResult` produced at call end has `agreed = true`,
`negotiatedRatePerMile = R` and `negotiatedRate = round(R * distance)`
(JS truthiness leaves `negotiatedRate` undefined when `R = 0`); if it ends
with `<<END:declined>>`, the result has `agreed = false`. -/
theorem negotiationResult_from_end_signal :
    (∀ (body intPart fracPart : List Char) (distance : ℚ)
        (brokerName : List Char) (transcript : List (List Char))
        (duration : ℕ),
      (∀ c ∈ intPart, isDigitChar c = true) → intPart ≠ [] →
      (∀ c ∈ fracPart, isDigitChar c = true) →
      decimalValue intPart fracPart ≠ 0 →
      ((callEndResult (body ++ ("<<END:agreed:".toList ++ intPart
            ++ ((if fracPart = [] then [] else '.' :: fracPart)
              ++ ">>".toList)))
          distance brokerName transcript duration).agreed = true ∧
        (callEndResult (body ++ ("<<END:agreed:".toList ++ intPart
            ++ ((if fracPart = [] then [] else '.' :: fracPart)
              ++ ">>".toList)))
          distance brokerName transcript duration).negotiatedRatePerMile
          = some (decimalValue intPart fracPart) ∧
        (callEndResult (body ++ ("<<END:agreed:".toList ++ intPart
            ++ ((if fracPart = [] then [] else '.' :: fracPart)
              ++ ">>".toList)))
          distance brokerName transcript duration).negotiatedRate
          = some (jsRound (decimalValue intPart fracPart * distance)))) ∧
    (∀ (body : List Char) (distance : ℚ) (brokerName : List Char)
        (transcript : List (List Char)) (duration : ℕ),
      (callEndResult (body ++ "<<END:declined>>".toList) distance brokerName
        transcript duration).agreed = false) := by
  constructor
  · intro body intPart fracPart distance brokerName transcript duration
      hint hne hfrac hval
    have hp := parseEndSignal_append body _ _
      (matchEndTagAt_agreed intPart fracPart hint hne hfrac)
    unfold callEndResult parseNegotiationResult
    rw [hp]
    refine ⟨rfl, rfl, ?_⟩
    simp [hval]
  · intro body distance brokerName transcript duration
    have h0 : matchEndTagAt "<<END:declined>>".toList
        = some ⟨false, none⟩ := rfl
    have hp := parseEndSignal_append body _ _ h0
    unfold callEndResult parseNegotiationResult
    rw [hp]

/-- Witness for the amended C2 theorem at a concrete input. -/
theorem negotiationResult_from_end_signal_witness :
    ((∀ c ∈ ['3'], isDigitChar c = true) ∧ (['3'] : List Char) ≠ [] ∧
      (∀ c ∈ ['7', '5'], isDigitChar c = true) ∧
      decimalValue ['3'] ['7', '5'] ≠ 0) ∧
    ((callEndResult ("Deal. ".toList ++ ("<<END:agreed:".toList ++ ['3']
          ++ ((if (['7', '5'] : List Char) = [] then []
                else '.' :: ['7', '5']) ++ ">>".toList)))
        500 [] [] 30).agreed = true ∧
      (callEndResult ("Deal. ".toList ++ ("<<END:agreed:".toList ++ ['3']
          ++ ((if (['7', '5'] : List Char) = [] then []
                else '.' :: ['7', '5']) ++ ">>".toList)))
        500 [] [] 30).negotiatedRatePerMile
        = some (decimalValue ['3'] ['7', '5']) ∧
      (callEndResult ("Deal. ".toList ++ ("<<END:agreed:".toList ++ ['3']
          ++ ((if (['7', '5'] : List Char) = [] then []
                else '.' :: ['7', '5']) ++ ">>".toList)))
        500 [] [] 30).negotiatedRate
        = some (jsRound (decimalValue ['3'] ['7', '5'] * 500))) ∧
    (callEndResult ("No. ".toList ++ "<<END:declined>>".toList)
      500 [] [] 30).agreed = false :=
  have hval : decimalValue ['3'] ['7', '5'] ≠ 0 := by
    unfold decimalValue
    rw [show natOfDigits ['3'] = 3 from rfl,
      show natOfDigits ['7', '5'] = 75 from rfl]
    norm_num
  ⟨⟨by decide, by decide, by decide, hval⟩,
    negotiationResult_from_end_signal.1 "Deal. ".toList ['3'] ['7', '5']
      500 [] [] 30 (by decide) (by decide) (by decide) hval,
    negotiationResult_from_end_signal.2 "No. ".toList 500 [] [] 30⟩

/-- Witness for the amended C5 theorem at a concrete input. -/
theorem mulaw_encode_idempotent_witness :
    (∀ b ∈ [16, 0, 0, 1], b < 256) ∧
    (∀ s ∈ bytesToSamples [16, 0, 0, 1], s < -3 ∨ -1 < s) ∧
    linear16ToMulaw (mulawToLinear16 (linear16ToMulaw [16, 0, 0, 1]))
      = linear16ToMulaw [16, 0, 0, 1] :=
  ⟨by decide, by decide, mulaw_encode_idempotent _ (by decide) (by decide)⟩

theorem headNotSpace_nil : headNotSpace [] := fun _ h => by simp at h

theorem dropWhile_eq_self_of_headNotSpace {l : List Char}
    (h : headNotSpace l) : l.dropWhile isSpaceChar = l := by
  cases l with
  | nil => rfl
  | cons c t => exact List.dropWhile_cons_of_neg (by simp [h c rfl])

theorem headNotSpace_dropWhile (l : List Char) :
    headNotSpace (l.dropWhile isSpaceChar) := by
  intro c hc
  have h := List.head?_dropWhile_not isSpaceChar l
  rw [hc] at h
  exact h

theorem jsTrim_reverse_eq (l : List Char) :
    (jsTrim l).reverse
      = (l.dropWhile isSpaceChar).reverse.dropWhile isSpaceChar := by
  unfold jsTrim
  rw [List.reverse_reverse]

theorem jsTrim_prefix_dropWhile (l : List Char) :
    jsTrim l <+: l.dropWhile isSpaceChar := by
  unfold jsTrim
  rw [← List.reverse_suffix]
  simpa using List.dropWhile_suffix
    (l := (l.dropWhile isSpaceChar).reverse) (p := isSpaceChar)

theorem headNotSpace_jsTrim (l : List Char) : headNotSpace (jsTrim l) := by
  intro c hc
  obtain ⟨r, hr⟩ := jsTrim_prefix_dropWhile l
  cases hX : jsTrim l with
  | nil => rw [hX] at hc; simp at hc
  | cons c0 t0 =>
    rw [hX] at hc hr
    rw [List.head?_cons] at hc
    injection hc with hc
    rw [← hc]
    exact headNotSpace_dropWhile l c0 (by rw [← hr]; rfl)

theorem headNotSpace_jsTrim_reverse (l : List Char) :
    headNotSpace (jsTrim l).reverse := by
  rw [jsTrim_reverse_eq]
  exact headNotSpace_dropWhile _

theorem jsTrim_eq_self {l : List Char} (h1 : headNotSpace l)
    (h2 : headNotSpace l.reverse) : jsTrim l = l := by
  unfold jsTrim
  rw [dropWhile_eq_self_of_headNotSpace h1,
    dropWhile_eq_self_of_headNotSpace h2, List.reverse_reverse]

theorem jsTrim_idem (l : List Char) : jsTrim (jsTrim l) = jsTrim l :=
  jsTrim_eq_self (headNotSpace_jsTrim l) (headNotSpace_jsTrim_reverse l)

theorem joinSpace_ne_nil {segs : List (List Char)} (hne : segs ≠ [])
    (hall : ∀ s ∈ segs, s ≠ []) : joinSpace segs ≠ [] := by
  cases segs with
  | nil => exact absurd rfl hne
  | cons s rest =>
    cases rest with
    | nil =>
      rw [show joinSpace [s] = s from rfl]
      exact hall s (by simp)
    | cons r t =>
      show s ++ ' ' :: joinSpace (r :: t) ≠ []
      simp

theorem headNotSpace_joinSpace {segs : List (List Char)}
    (hall : ∀ s ∈ segs, headNotSpace s ∧ s ≠ []) :
    headNotSpace (joinSpace segs) := by
  cases segs with
  | nil => exact headNotSpace_nil
  | cons s rest =>
    obtain ⟨hh, hne⟩ := hall s (by simp)
    cases s with
    | nil => exact absurd rfl hne
    | cons c0 t0 =>
      intro c hc
      cases rest with
      | nil =>
        rw [show joinSpace [c0 :: t0] = c0 :: t0 from rfl] at hc
        rw [List.head?_cons] at hc
        injection hc with hc
        exact hc ▸ hh c0 rfl
      | cons r t =>
        rw [show joinSpace ((c0 :: t0) :: r :: t)
            = (c0 :: t0) ++ ' ' :: joinSpace (r :: t) from rfl,
          List.cons_append, List.head?_cons] at hc
        injection hc with hc
        exact hc ▸ hh c0 rfl

theorem headNotSpace_reverse_joinSpace : ∀ {segs : List (List Char)},
    (∀ s ∈ segs, headNotSpace s.reverse ∧ s ≠ []) →
    headNotSpace (joinSpace segs).reverse
  | [], _ => headNotSpace_nil
  | [s], hall => by
    rw [show joinSpace [s] = s from rfl]
    exact (hall s (by simp)).1
  | s :: r :: t, hall => by
    have ih := @headNotSpace_reverse_joinSpace
      (r :: t) (fun x hx => hall x (by simp [hx]))
    have hjne : joinSpace (r :: t) ≠ [] :=
      joinSpace_ne_nil (by simp) (fun x hx => (hall x (by simp [hx])).2)
    rw [show joinSpace (s :: r :: t) = s ++ ' ' :: joinSpace (r :: t)
      from rfl]
    intro c hc
    rw [List.reverse_append, List.reverse_cons] at hc
    cases hX : (joinSpace (r :: t)).reverse with
    | nil => exact absurd (by simpa using congrArg List.reverse hX) hjne
    | cons c0 t0 =>
      rw [hX, List.append_assoc, List.cons_append, List.head?_cons] at hc
      injection hc with hc
      exact hc ▸ ih c0 (by rw [hX]; rfl)

/-- Members of `finalSegments` are trimmed and non-empty. -/
theorem mem_finalSegments {s : List Char} {msgs : List STTMsg}
    (hs : s ∈ finalSegments msgs) : (∃ t, s = jsTrim t) ∧ s ≠ [] := by
  unfold finalSegments at hs
  rcases List.mem_filterMap.mp hs with ⟨m, _, heq⟩
  split_ifs at heq with hcond
  injection heq with heq
  exact ⟨⟨m.text, heq.symm⟩, heq ▸ hcond.2.2⟩

/-- Members of `interimTexts` are trimmed. -/
theorem mem_interimTexts {s : List Char} {msgs : List STTMsg}
    (hs : s ∈ interimTexts msgs) : ∃ t, s = jsTrim t := by
  unfold interimTexts at hs
  rcases List.mem_filterMap.mp hs with ⟨m, _, heq⟩
  split_ifs at heq with hcond
  injection heq with heq
  exact ⟨m.text, heq.symm⟩

theorem jsTrim_joinSpace_finalSegments (msgs : List STTMsg) :
    jsTrim (joinSpace (finalSegments msgs)) = joinSpace (finalSegments msgs) := by
  apply jsTrim_eq_self
  · apply headNotSpace_joinSpace
    intro s hs
    obtain ⟨⟨t, rfl⟩, hne⟩ := mem_finalSegments hs
    exact ⟨headNotSpace_jsTrim t, hne⟩
  · apply headNotSpace_reverse_joinSpace
    intro s hs
    obtain ⟨⟨t, rfl⟩, hne⟩ := mem_finalSegments hs
    exact ⟨headNotSpace_jsTrim_reverse t, hne⟩

theorem finalSegments_cons_skip (m : STTMsg) (rest : List STTMsg)
    (h : ¬(m.isFinal = true ∧ m.text ≠ [] ∧ jsTrim m.text ≠ [])) :
    finalSegments (m :: rest) = finalSegments rest := by
  unfold finalSegments
  rw [List.filterMap_cons, if_neg h]

theorem finalSegments_cons_take (m : STTMsg) (rest : List STTMsg)
    (h : m.isFinal = true ∧ m.text ≠ [] ∧ jsTrim m.text ≠ []) :
    finalSegments (m :: rest) = jsTrim m.text :: finalSegments rest := by
  unfold finalSegments
  rw [List.filterMap_cons, if_pos h]

theorem interimTexts_cons_skip (m : STTMsg) (rest : List STTMsg)
    (h : ¬(m.isFinal = false ∧ m.text ≠ [])) :
    interimTexts (m :: rest) = interimTexts rest := by
  unfold interimTexts
  rw [List.filterMap_cons, if_neg h]

theorem interimTexts_cons_take (m : STTMsg) (rest : List STTMsg)
    (h : m.isFinal = false ∧ m.text ≠ []) :
    interimTexts (m :: rest) = jsTrim m.text :: interimTexts rest := by
  unfold interimTexts
  rw [List.filterMap_cons, if_pos h]

theorem getLast?_getD_cons {α : Type} (a d : α) (l : List α) :
    ((a :: l).getLast?).getD d = (l.getLast?).getD a := by
  cases l with
  | nil => rfl
  | cons b t =>
    rw [List.getLast?_cons_cons]
    cases h : (b :: t).getLast? with
    | none => exact absurd (List.getLast?_eq_none_iff.mp h) (by simp)
    | some x => rfl

theorem sttStep_skip_text {m : STTMsg} (st : List Char × List Char)
    (h : m.text = []) : sttStep st m = st := by
  unfold sttStep
  rw [if_pos h]

theorem sttStep_final_ws {m : STTMsg} (st : List Char × List Char)
    (ht : m.text ≠ []) (hf : m.isFinal = true) (htr : jsTrim m.text = []) :
    sttStep st m = st := by
  unfold sttStep
  rw [if_neg ht, if_pos hf, if_pos htr]

theorem sttStep_final {m : STTMsg} (st : List Char × List Char)
    (ht : m.text ≠ []) (hf : m.isFinal = true) (htr : jsTrim m.text ≠ []) :
    sttStep st m
      = (st.1 ++ (if st.1 = [] then [] else [' ']) ++ jsTrim m.text, st.2) := by
  unfold sttStep
  rw [if_neg ht, if_pos hf, if_neg htr]

theorem sttStep_interim {m : STTMsg} (st : List Char × List Char)
    (ht : m.text ≠ []) (hf : ¬m.isFinal = true) :
    sttStep st m = (st.1, jsTrim m.text) := by
  unfold sttStep
  rw [if_neg ht, if_neg hf]

/-- The accumulated final text after the fold is the space-join of the
non-empty final segments (appended after whatever `acc` already holds). -/
theorem sttFoldAux_fst : ∀ (msgs : List STTMsg) (acc li : List Char),
    (List.foldl sttStep (acc, li) msgs).1
      = if finalSegments msgs = [] then acc
        else if acc = [] then joinSpace (finalSegments msgs)
        else acc ++ ' ' :: joinSpace (finalSegments msgs) := by
  intro msgs
  induction msgs with
  | nil =>
    intro acc li
    simp [finalSegments]
  | cons m rest ih =>
    intro acc li
    rw [List.foldl_cons]
    by_cases ht : m.text = []
    · rw [sttStep_skip_text _ ht, finalSegments_cons_skip m rest (by tauto)]
      exact ih acc li
    · by_cases hf : m.isFinal = true
      · by_cases htr : jsTrim m.text = []
        · rw [sttStep_final_ws _ ht hf htr,
            finalSegments_cons_skip m rest (by tauto)]
          exact ih acc li
        · rw [sttStep_final _ ht hf htr,
            finalSegments_cons_take m rest ⟨hf, ht, htr⟩]
          rw [ih]
          simp only []
          rw [if_neg (List.cons_ne_nil _ _)]
          by_cases hacc : acc = []
          · subst hacc
            rw [if_pos rfl, if_pos (show ([] : List Char) = [] from rfl)]
            simp only [List.nil_append]
            rw [if_neg htr]
            by_cases hrest : finalSegments rest = []
            · rw [if_pos hrest, hrest]
              rfl
            · rw [if_neg hrest]
              cases hR : finalSegments rest with
              | nil => exact absurd hR hrest
              | cons r t => rfl
          · rw [if_neg hacc, if_neg hacc]
            have hacc2 : acc ++ [' '] ++ jsTrim m.text ≠ [] := by simp
            rw [if_neg hacc2]
            by_cases hrest : finalSegments rest = []
            · rw [if_pos hrest, hrest]
              rw [show joinSpace [jsTrim m.text] = jsTrim m.text from rfl]
              simp
            · rw [if_neg hrest]
              cases hR : finalSegments rest with
              | nil => exact absurd hR hrest
              | cons r t =>
                rw [show joinSpace (jsTrim m.text :: r :: t)
                  = jsTrim m.text ++ ' ' :: joinSpace (r :: t) from rfl]
                simp
      · rw [sttStep_interim _ ht hf,
          finalSegments_cons_skip m rest (by tauto)]
        exact ih acc (jsTrim m.text)

/-- The last-interim slot after the fold is the last text-carrying interim's
trimmed text (defaulting to whatever `li` already holds). -/
theorem sttFoldAux_snd : ∀ (msgs : List STTMsg) (acc li : List Char),
    (List.foldl sttStep (acc, li) msgs).2
      = ((interimTexts msgs).getLast?).getD li := by
  intro msgs
  induction msgs with
  | nil =>
    intro acc li
    simp [interimTexts]
  | cons m rest ih =>
    intro acc li
    rw [List.foldl_cons]
    by_cases ht : m.text = []
    · rw [sttStep_skip_text _ ht, interimTexts_cons_skip m rest (by tauto)]
      exact ih acc li
    · by_cases hf : m.isFinal = true
      · rw [interimTexts_cons_skip m rest (by simp [hf])]
        by_cases htr : jsTrim m.text = []
        · rw [sttStep_final_ws _ ht hf htr]
          exact ih acc li
        · rw [sttStep_final _ ht hf htr]
          exact ih _ li
      · rw [sttStep_interim _ ht hf,
          interimTexts_cons_take m rest ⟨by simpa using hf, ht⟩,
          getLast?_getD_cons]
        exact ih acc (jsTrim m.text)

/-- Counterexample to C7 as stated: after a single interim result whose text
is the one-space string, `endUtterance` returns the empty string although an
interim result did arrive — "the empty string only when neither arrived" is
wrong. -/
theorem endUtterance_claim_false :
    ¬ (endUtteranceText [⟨false, [' ']⟩]
          = claimedEndUtteranceText [⟨false, [' ']⟩] ∧
        (endUtteranceText [⟨false, [' ']⟩] = [] →
          finalSegments [⟨false, [' ']⟩] = [] ∧
          ([(⟨false, [' ']⟩ : STTMsg)].filter fun m => !m.isFinal) = [])) := by
  decide

/-- C7 (amended): `endUtterance` returns the non-empty final segments joined
by single spaces when at least one non-empty final result arrived; otherwise
the trimmed text of the last interim result that carried text (interims with
empty text are ignored and do not overwrite the slot), which is the empty
string exactly when no such interim arrived or the last one was
whitespace-only. -/
theorem endUtteranceText_spec (msgs : List STTMsg) :
    endUtteranceText msgs
      = if finalSegments msgs = []
        then ((interimTexts msgs).getLast?).getD []
        else joinSpace (finalSegments msgs) := by
  unfold endUtteranceText getBestText sttFold
  rw [sttFoldAux_fst, sttFoldAux_snd]
  by_cases hseg : finalSegments msgs = []
  · rw [if_pos hseg, if_pos hseg]
    rw [show jsTrim ([] : List Char) = [] from rfl, if_pos rfl]
    cases hL : (interimTexts msgs).getLast? with
    | none => rfl
    | some x =>
      obtain ⟨t, rfl⟩ := mem_interimTexts (List.mem_of_getLast?_eq_some hL)
      simp only [Option.getD_some]
      exact jsTrim_idem t
  · rw [if_neg hseg, if_neg hseg, if_pos rfl, jsTrim_joinSpace_finalSegments]
    rw [if_neg (joinSpace_ne_nil hseg fun s hs => (mem_finalSegments hs).2)]

theorem jsTrim_length_le (l : List Char) : (jsTrim l).length ≤ l.length :=
  (jsTrim_infixOf l).sublist.length_le

theorem mem_of_mem_jsTrim {ch : Char} {l : List Char} (h : ch ∈ jsTrim l) :
    ch ∈ l :=
  (jsTrim_infixOf l).sublist.subset h

theorem chunkOK_jsTrim {maxLen : ℕ} {c : List Char} (h : chunkOK maxLen c) :
    chunkOK maxLen (jsTrim c) := by
  rcases h with h | h
  · exact Or.inl (le_trans (jsTrim_length_le c) h)
  · exact Or.inr fun ch hch => h ch (mem_of_mem_jsTrim hch)

/-- Invariant of the `split(/\s+/)` scan: neither the finished words nor the
word being built contain whitespace. -/
theorem splitWs_fold_no_space : ∀ (s : List Char)
    (st : List (List Char) × List Char × Bool),
    (∀ w ∈ st.1, ∀ ch ∈ w, isSpaceChar ch = false) →
    (∀ ch ∈ st.2.1, isSpaceChar ch = false) →
    (∀ w ∈ (s.foldl splitWsStep st).1, ∀ ch ∈ w, isSpaceChar ch = false) ∧
      (∀ ch ∈ (s.foldl splitWsStep st).2.1, isSpaceChar ch = false) := by
  intro s
  induction s with
  | nil => exact fun st h1 h2 => ⟨h1, h2⟩
  | cons c t ih =>
    intro st h1 h2
    rw [List.foldl_cons]
    apply ih
    · intro w hw
      unfold splitWsStep at hw
      split_ifs at hw with hsp hin
      · exact h1 w hw
      · rcases List.mem_append.mp hw with hw2 | hw2
        · exact h1 w hw2
        · rw [List.mem_singleton] at hw2
          exact hw2 ▸ h2
      · exact h1 w hw
    · intro ch hch
      unfold splitWsStep at hch
      split_ifs at hch with hsp hin
      · exact h2 ch hch
      · simp at hch
      · rcases List.mem_append.mp hch with hch2 | hch2
        · exact h2 ch hch2
        · rw [List.mem_singleton] at hch2
          subst hch2
          simpa using hsp

/-- Words produced by `split(/\s+/)` contain no whitespace. -/
theorem splitWs_no_space (s : List Char) :
    ∀ w ∈ splitWs s, ∀ ch ∈ w, isSpaceChar ch = false := by
  intro w hw
  unfold splitWs at hw
  have h := splitWs_fold_no_space s ([], [], false) (by simp) (by simp)
  rcases List.mem_append.mp hw with hw | hw
  · exact h.1 w hw
  · rw [List.mem_singleton] at hw
    exact hw ▸ h.2

/-- Pushing the trimmed running chunk preserves chunk acceptability. -/
theorem chunkOK_push {maxLen : ℕ} {chunks : List (List Char)}
    {cur : List Char} (h1 : ∀ c ∈ chunks, chunkOK maxLen c)
    (h2 : chunkOK maxLen cur) :
    ∀ c ∈ chunks ++ (if cur = [] then [] else [jsTrim cur]),
      chunkOK maxLen c := by
  intro c hc
  rcases List.mem_append.mp hc with hc | hc
  · exact h1 c hc
  · split_ifs at hc with hcur
    · simp at hc
    · rw [List.mem_singleton] at hc
      exact hc ▸ chunkOK_jsTrim h2

theorem wordStep_over {maxLen : ℕ} {chunks : List (List Char)}
    {cur w : List Char} (h : maxLen < (cur ++ [' '] ++ w).length) :
    wordStep maxLen (chunks, cur) w
      = (chunks ++ (if cur = [] then [] else [jsTrim cur]), w) := by
  simp only [wordStep]
  rw [if_pos h]

theorem wordStep_fit {maxLen : ℕ} {chunks : List (List Char)}
    {cur w : List Char} (h : ¬ maxLen < (cur ++ [' '] ++ w).length) :
    wordStep maxLen (chunks, cur) w
      = (chunks, cur ++ (if cur = [] then [] else [' ']) ++ w) := by
  simp only [wordStep]
  rw [if_neg h]

/-- Invariant of the inner word-packing loop. -/
theorem wordFold_inv (maxLen : ℕ) : ∀ (ws chunks : List (List Char))
    (cur : List Char),
    (∀ c ∈ chunks, chunkOK maxLen c) →
    chunkOK maxLen cur →
    (∀ w ∈ ws, ∀ ch ∈ w, isSpaceChar ch = false) →
    (∀ c ∈ (ws.foldl (wordStep maxLen) (chunks, cur)).1, chunkOK maxLen c) ∧
      chunkOK maxLen (ws.foldl (wordStep maxLen) (chunks, cur)).2 := by
  intro ws
  induction ws with
  | nil => exact fun chunks cur h1 h2 _ => ⟨h1, h2⟩
  | cons w t ih =>
    intro chunks cur h1 h2 hws
    rw [List.foldl_cons]
    by_cases hover : maxLen < (cur ++ [' '] ++ w).length
    · rw [wordStep_over hover]
      exact ih _ _ (chunkOK_push h1 h2) (Or.inr (hws w (by simp)))
        (fun x hx => hws x (by simp [hx]))
    · rw [wordStep_fit hover]
      refine ih _ _ h1 (Or.inl ?_) (fun x hx => hws x (by simp [hx]))
      have hsep : (if cur = [] then ([] : List Char) else [' ']).length ≤ 1 := by
        split_ifs <;> simp
      simp only [List.length_append, List.length_singleton] at hover hsep ⊢
      omega

theorem sentenceStep_over_long {maxLen : ℕ} {chunks : List (List Char)}
    {cur s : List Char} (hover : maxLen < (cur ++ s).length)
    (hlong : maxLen < s.length) :
    sentenceStep maxLen (chunks, cur) s
      = (splitWs s).foldl (wordStep maxLen)
          (chunks ++ (if cur = [] then [] else [jsTrim cur]), []) := by
  simp only [sentenceStep]
  rw [if_pos hover, if_pos hlong]

theorem sentenceStep_over_short {maxLen : ℕ} {chunks : List (List Char)}
    {cur s : List Char} (hover : maxLen < (cur ++ s).length)
    (hlong : ¬ maxLen < s.length) :
    sentenceStep maxLen (chunks, cur) s
      = (chunks ++ (if cur = [] then [] else [jsTrim cur]), s) := by
  simp only [sentenceStep]
  rw [if_pos hover, if_neg hlong]

theorem sentenceStep_fit {maxLen : ℕ} {chunks : List (List Char)}
    {cur s : List Char} (hover : ¬ maxLen < (cur ++ s).length) :
    sentenceStep maxLen (chunks, cur) s = (chunks, cur ++ s) := by
  simp only [sentenceStep]
  rw [if_neg hover]

/-- Invariant of the outer sentence-packing loop. -/
theorem sentenceFold_inv (maxLen : ℕ) : ∀ (ss chunks : List (List Char))
    (cur : List Char),
    (∀ c ∈ chunks, chunkOK maxLen c) →
    chunkOK maxLen cur →
    (∀ c ∈ (ss.foldl (sentenceStep maxLen) (chunks, cur)).1,
        chunkOK maxLen c) ∧
      chunkOK maxLen (ss.foldl (sentenceStep maxLen) (chunks, cur)).2 := by
  intro ss
  induction ss with
  | nil => exact fun chunks cur h1 h2 => ⟨h1, h2⟩
  | cons s t ih =>
    intro chunks cur h1 h2
    rw [List.foldl_cons]
    by_cases hover : maxLen < (cur ++ s).length
    · by_cases hlong : maxLen < s.length
      · rw [sentenceStep_over_long hover hlong]
        have hw := wordFold_inv maxLen (splitWs s)
          (chunks ++ (if cur = [] then [] else [jsTrim cur])) []
          (chunkOK_push h1 h2) (Or.inl (by simp)) (splitWs_no_space s)
        rcases hfold : (splitWs s).foldl (wordStep maxLen)
            (chunks ++ (if cur = [] then [] else [jsTrim cur]), []) with ⟨c1, c2⟩
        rw [hfold] at hw
        exact ih _ _ hw.1 hw.2
      · rw [sentenceStep_over_short hover hlong]
        exact ih _ _ (chunkOK_push h1 h2) (Or.inl (by omega))
    · rw [sentenceStep_fit hover]
      exact ih _ _ h1 (Or.inl (by omega))

set_option maxRecDepth 8192 in
/-- Counterexample to C8 as stated: a single whitespace-free 121-character
word cannot be split except mid-word, so `chunkText` emits it whole as a
chunk of length 121 > 120. -/
theorem chunkText_length_claim_false :
    ¬ (∀ c ∈ chunkText (List.replicate 121 'a') 120, c.length ≤ 120) := by
  decide

/-- C8 (amended): `chunkText` splits first at `.!?,;` clause boundaries and,
when a single clause still exceeds the limit, at whitespace; every returned
chunk is within the length limit except that a whitespace-free word longer
than the limit is emitted whole as its own over-long chunk.  (A clause
boundary may itself fall inside a whitespace-delimited token such as
`3.75`.) -/
theorem chunkText_length_or_word (text : List Char) (maxLen : ℕ) :
    ∀ c ∈ chunkText text maxLen, chunkOK maxLen c := by
  intro c hc
  unfold chunkText at hc
  have h := sentenceFold_inv maxLen (sentencesOf text) [] []
    (by simp) (Or.inl (by simp))
  rcases List.mem_append.mp hc with hc | hc
  · exact h.1 c hc
  · split_ifs at hc with hcur
    · simp at hc
    · rw [List.mem_singleton] at hc
      exact hc ▸ chunkOK_jsTrim h.2

set_option maxRecDepth 2048 in
/-- Witness for the amended C8 theorem at a concrete input. -/
theorem chunkText_length_or_word_witness :
    "hello there".toList ∈ chunkText "hello there".toList 120 ∧
    chunkOK 120 "hello there".toList :=
  ⟨by decide, chunkText_length_or_word "hello there".toList 120
    "hello there".toList (by decide)⟩

/-- `endCall` returns immediately in a terminal state. -/
theorem endCall_of_terminal (s : CallSessionState) (r : List Char) (now : ℕ)
    (h : s.state = CallState.completed ∨ s.state = CallState.failed) :
    endCall s r now = s := by
  unfold endCall
  rw [if_pos h]

/-- C9: `endCall` is a no-op in a terminal state, and from a non-terminal
state a first `endCall` reaches a terminal state, invokes the registered
completion callback exactly once, and every later `endCall` leaves the
whole session state — state, stored result, end time, transcript, callback
count — unchanged. -/
theorem endCall_idempotent_once :
    (∀ (s : CallSessionState) (r : List Char) (now : ℕ),
      (s.state = CallState.completed ∨ s.state = CallState.failed) →
      endCall s r now = s) ∧
    (∀ (s : CallSessionState) (r r2 : List Char) (now now2 : ℕ),
      ¬(s.state = CallState.completed ∨ s.state = CallState.failed) →
      s.callbackRegistered = true →
      ((endCall s r now).state = CallState.completed ∨
        (endCall s r now).state = CallState.failed) ∧
      endCall (endCall s r now) r2 now2 = endCall s r now ∧
      (endCall s r now).callbackCount = s.callbackCount + 1) := by
  constructor
  · exact fun s r now hterm => endCall_of_terminal s r now hterm
  · intro s r r2 now now2 hterm hreg
    have hstate : (endCall s r now).state = CallState.completed ∨
        (endCall s r now).state = CallState.failed := by
      unfold endCall
      rw [if_neg hterm]
      by_cases hr : r = "failed".toList ∨ r = "no-answer".toList ∨
          r = "busy".toList
      · refine Or.inr ?_
        show (if r = "failed".toList ∨ r = "no-answer".toList ∨
          r = "busy".toList then CallState.failed else CallState.completed)
          = CallState.failed
        rw [if_pos hr]
      · refine Or.inl ?_
        show (if r = "failed".toList ∨ r = "no-answer".toList ∨
          r = "busy".toList then CallState.failed else CallState.completed)
          = CallState.completed
        rw [if_neg hr]
    refine ⟨hstate, endCall_of_terminal _ r2 now2 hstate, ?_⟩
    show (endCall s r now).callbackCount = s.callbackCount + 1
    unfold endCall
    rw [if_neg hterm]
    simp [hreg]

/-- Witness for the C9 theorem at concrete session states. -/
theorem endCall_idempotent_once_witness :
    ((doneSession.state = CallState.completed ∨
        doneSession.state = CallState.failed) ∧
      endCall doneSession "hangup".toList 9 = doneSession) ∧
    (¬(liveSession.state = CallState.completed ∨
        liveSession.state = CallState.failed) ∧
      liveSession.callbackRegistered = true ∧
      (((endCall liveSession "negotiation_complete".toList 5000).state
            = CallState.completed ∨
          (endCall liveSession "negotiation_complete".toList 5000).state
            = CallState.failed) ∧
        endCall (endCall liveSession "negotiation_complete".toList 5000)
            "hangup".toList 6000
          = endCall liveSession "negotiation_complete".toList 5000 ∧
        (endCall liveSession
            "negotiation_complete".toList 5000).callbackCount
          = liveSession.callbackCount + 1)) :=
  ⟨⟨Or.inl rfl,
      endCall_idempotent_once.1 doneSession "hangup".toList 9 (Or.inl rfl)⟩,
    by decide, rfl,
    endCall_idempotent_once.2 liveSession "negotiation_complete".toList
      "hangup".toList 5000 6000 (by decide) rfl⟩

/-- C6: evaluating the voice session's turn handling at the failing input.
The first turn received the delta `"Hi"` before being aborted by the second
`handleUserMessage`, its stream yielded one further chunk (`break` path),
and the second turn streamed `"Sure."`; the unguarded
`if (fullResponseText)` push then appends assistant entries for BOTH turns,
where the claim (and the spec's turn single-flight property) allow only the
latest turn's single append. -/
theorem double_turn_appends_two :
    assistantEntriesAppended
      [StreamChunk.textDelta "Hi".toList, StreamChunk.textDelta " there".toList]
      [StreamChunk.textDelta "Sure.".toList] 1 false = 2 := by
  decide

end RoadPilot
